import Mathlib

/-!
# Verification of the DNA pattern-matching core (`src/dnaPatternMatching.c`)

Shallow embedding of the three matching algorithms of the C program
(`bruteForce`, `karpRabin` with `hash`/`rehash`, and `lcss`) together with
proofs of the spec's testable properties.

Modeling conventions:

* A DNA sequence is a `List Char`; the C code reads characters through
  `char *` and converts them with `(int)`, which we model by `cAt`: the
  character code at index `i`, and `0` (the NUL terminator that `readFile`
  writes after the data) for any out-of-range index.
* C `int` arithmetic is modeled on `Int` with two's-complement wrap-around
  at 32 bits (`wrap32`) applied to every arithmetic operation that the C
  source performs on `int` operands, and the C `%` operator is truncated
  remainder (`Int.tmod`).
* `(int) pow(2, p)` is modeled by `cpow2`: exact for `0 ≤ p ≤ 30`
  (`pow` is exact on these doubles and the cast is in range), `0` for
  `p < 0` (`pow(2,-1) = 0.5` truncates to `0`), and `-2^31` for `p ≥ 31`
  (the out-of-range double-to-int conversion as performed by `cvttsd2si`
  on the x86 targets the program is built for).
* Loop counters and occurrence counters (`i`, `j`, `occurrences`,
  `strlen` results) are modeled as exact integers: sequence lengths are
  assumed to be representable in `int`, which the surrounding program
  guarantees for any input it can load.
-/

namespace DnaPM

/-- `INT_MAX` from `<limits.h>`: the hash modulus used at lines 129 and 137. -/
def INT_MAX : Int := 2 ^ 31 - 1

/-- Two's-complement wrap-around of 32-bit `int` arithmetic. -/
def wrap32 (x : Int) : Int := (x + 2 ^ 31) % 2 ^ 32 - 2 ^ 31

/-- `(int) pow(2, p)` as computed by the C program (see the module docstring). -/
def cpow2 (p : Int) : Int :=
  if p < 0 then 0 else if p ≤ 30 then 2 ^ p.toNat else -(2 ^ 31)

/-- `(int) sequence[i]`: the character code at index `i`, `0` (NUL) past the end. -/
def cAt (S : List Char) (i : Nat) : Int :=
  match S[i]? with
  | some c => (c.toNat : Int)
  | none => 0

/-- `hash` (lines 123-131): `value = Σ_{i=0}^{length} sequence[i] * (int)pow(2, length-i)`,
accumulated in `int` arithmetic, then `value % INT_MAX`. -/
def hash (S : List Char) (len : Int) : Int :=
  Int.tmod
    ((List.range (len + 1).toNat).foldl
      (fun v i => wrap32 (v + wrap32 (cAt S i * cpow2 (len - (i : Int))))) 0)
    INT_MAX

/-- `rehash` (lines 136-139): `((hash - before * (int)pow(2,power)) * 2 + after) % INT_MAX`
in `int` arithmetic. -/
def rehash (before h after power : Int) : Int :=
  Int.tmod (wrap32 (wrap32 (wrap32 (h - wrap32 (before * cpow2 power)) * 2) + after)) INT_MAX

/-- The inner verification loop shared by `bruteForce` (lines 82-88) and
`karpRabin` (lines 107-113): `j` runs from `0` while
`patternSequence[j] == dnaSequence[i+j]`, and a full match is `j == patternLength`. -/
def matchAt (dna pat : List Char) (i : Nat) : Bool :=
  (List.range pat.length).all fun j => cAt pat j == cAt dna (i + j)

/-- `bruteForce` (lines 79-91): count the offsets `0 ≤ i ≤ dnaLength - patternLength`
(int arithmetic, so an empty range when the pattern is longer) at which the
verification loop reaches `j == patternLength`. -/
def bruteForce (dna pat : List Char) : Nat :=
  (List.range ((dna.length : Int) - (pat.length : Int) + 1).toNat).countP (matchAt dna pat)

/-- One iteration of the `karpRabin` scan loop (lines 105-116): on hash equality
verify character by character and count, then advance the window hash with `rehash`. -/
def karpRabinStep (dna pat : List Char) (patHash : Int) (st : Nat × Int) (i : Nat) :
    Nat × Int :=
  ((if patHash = st.2 then (if matchAt dna pat i then st.1 + 1 else st.1) else st.1),
   rehash (cAt dna i) st.2 (cAt dna (i + pat.length)) ((pat.length : Int) - 1))

/-- `karpRabin` (lines 101-118): hash the pattern and the first window with
`hash(·, patternLength - 1)`, then scan offsets `0 ≤ i ≤ dnaLength - patternLength`. -/
def karpRabin (dna pat : List Char) : Nat :=
  let patHash := hash pat ((pat.length : Int) - 1)
  let dnaHash := hash dna ((pat.length : Int) - 1)
  ((List.range ((dna.length : Int) - (pat.length : Int) + 1).toNat).foldl
    (karpRabinStep dna pat patHash) (0, dnaHash)).1

/-- Row `i+1` of the `lcss` dynamic-programming table (lines 155-164), given row `i`
as `prev`: entry `j = 0` is the initialized first column, and entry `j+1` compares
`sequenceA[i]` with `sequenceB[j]`. -/
def lcssRow (A B : List Char) (prev : Nat → Nat) (i : Nat) : Nat → Nat
  | 0 => 0
  | j + 1 =>
    if cAt A i = cAt B j then prev j + 1
    else max (prev (j + 1)) (lcssRow A B prev i j)

/-- The `lcss` table (lines 148-164): `lcssT A B i j` is `arr[i][j]`,
with row `0` and column `0` zero-initialized. -/
def lcssT (A B : List Char) : Nat → Nat → Nat
  | 0 => fun _ => 0
  | i + 1 => fun j => lcssRow A B (lcssT A B i) i j

/-- `lcss` (lines 144-168): the bottom-right table entry `arr[lenA-1][lenB-1]`. -/
def lcss (A B : List Char) : Nat := lcssT A B A.length B.length

/-- The sequences the program operates on: every character is one of `a`, `c`, `g`, `t`
(enforced by `countFileCharacters`, lines 38-45). -/
def isDna (S : List Char) : Prop := ∀ c ∈ S, c = 'a' ∨ c = 'c' ∨ c = 'g' ∨ c = 't'

instance (S : List Char) : Decidable (isDna S) := by unfold isDna; infer_instance

/-! ## Basic facts about the character model -/

theorem cAt_nonneg (S : List Char) (i : Nat) : 0 ≤ cAt S i := by
  unfold cAt
  cases S[i]? <;> simp

theorem cAt_le_of_isDna {S : List Char} (hS : isDna S) (i : Nat) : cAt S i ≤ 116 := by
  unfold cAt
  cases hc : S[i]? with
  | none => norm_num
  | some c =>
    obtain ⟨hlt, rfl⟩ := List.getElem?_eq_some.mp hc
    rcases hS _ (List.getElem_mem hlt) with h | h | h | h <;> rw [h] <;> decide

theorem charCode_inj {c d : Char} (h : (c.toNat : Int) = (d.toNat : Int)) : c = d :=
  Char.ext (UInt32.ext (by exact_mod_cast h))

theorem cAt_eq_of_lt {S : List Char} {i : Nat} (h : i < S.length) :
    cAt S i = ((S[i]).toNat : Int) := by
  unfold cAt
  rw [List.getElem?_eq_getElem h]

/-- Reading inside the window `sequence + d`, truncated to `m` characters,
is reading the underlying sequence (both give NUL past the data). -/
theorem cAt_drop_take (S : List Char) (d m j : Nat) :
    cAt ((S.drop d).take m) j = if j < m then cAt S (d + j) else 0 := by
  by_cases h : j < m
  · unfold cAt
    rw [List.getElem?_take, if_pos h, List.getElem?_drop, if_pos h]
  · unfold cAt
    rw [List.getElem?_take, if_neg h, if_neg h]

/-! ## The exact polynomial window value

`windowSum S i m` is the mathematical value `Σ_{j<m} S[i+j] * 2^(m-1-j)` that
`hash` and `rehash` compute, exact as long as no intermediate `int` overflows. -/

/-- Exact polynomial value of the window of length `m` starting at offset `i`. -/
def windowSum (S : List Char) (i m : Nat) : Int :=
  ∑ j ∈ Finset.range m, cAt S (i + j) * 2 ^ (m - 1 - j)

theorem windowSum_succ_last (S : List Char) (i m : Nat) :
    windowSum S i (m + 1) = 2 * windowSum S i m + cAt S (i + m) := by
  unfold windowSum
  rw [Finset.sum_range_succ, Finset.mul_sum]
  congr 1
  · refine Finset.sum_congr rfl fun j hj => ?_
    rw [Finset.mem_range] at hj
    have he : m + 1 - 1 - j = m - 1 - j + 1 := by omega
    rw [he, pow_succ]
    ring
  · have he : m + 1 - 1 - m = 0 := by omega
    rw [he, pow_zero, mul_one]

theorem windowSum_succ_first (S : List Char) (i m : Nat) :
    windowSum S i (m + 1) = cAt S i * 2 ^ m + windowSum S (i + 1) m := by
  unfold windowSum
  rw [Finset.sum_range_succ']
  have h0 : cAt S (i + 0) * 2 ^ (m + 1 - 1 - 0) = cAt S i * 2 ^ m := by simp
  have hsum : (∑ k ∈ Finset.range m, cAt S (i + (k + 1)) * 2 ^ (m + 1 - 1 - (k + 1)))
      = ∑ j ∈ Finset.range m, cAt S (i + 1 + j) * 2 ^ (m - 1 - j) := by
    refine Finset.sum_congr rfl fun j hj => ?_
    rw [Finset.mem_range] at hj
    have h1 : i + (j + 1) = i + 1 + j := by omega
    have h2 : m + 1 - 1 - (j + 1) = m - 1 - j := by omega
    rw [h1, h2]
  rw [h0, hsum]
  exact add_comm _ _

theorem windowSum_nonneg (S : List Char) (i m : Nat) : 0 ≤ windowSum S i m :=
  Finset.sum_nonneg fun j _ => mul_nonneg (cAt_nonneg S (i + j)) (by positivity)

theorem windowSum_le {S : List Char} (hb : ∀ x, cAt S x ≤ 116) (i m : Nat) :
    windowSum S i m ≤ 116 * (2 ^ m - 1) := by
  induction m with
  | zero => simp [windowSum]
  | succ m ih =>
    rw [windowSum_succ_last, pow_succ]
    have hc := hb (i + m)
    linarith

/-! ## The `int` arithmetic performed by `hash` and `rehash` is exact below 24 bits -/

theorem wrap32_eq_self {x : Int} (h1 : -(2 ^ 31) ≤ x) (h2 : x < 2 ^ 31) : wrap32 x = x := by
  unfold wrap32
  rw [Int.emod_eq_of_lt (by omega) (by omega)]
  omega

theorem tmod_INT_MAX_eq_self {x : Int} (h1 : 0 ≤ x) (h2 : x < INT_MAX) :
    Int.tmod x INT_MAX = x := by
  rw [Int.tmod_eq_emod h1 (by unfold INT_MAX; omega)]
  exact Int.emod_eq_of_lt h1 h2

theorem cpow2_natCast (p : Nat) (hp : p ≤ 30) : cpow2 (p : Int) = 2 ^ p := by
  unfold cpow2
  rw [if_neg (by omega), if_pos (by exact_mod_cast hp), Int.toNat_natCast]

/-- Evaluation of `hash(sequence, m - 1)`: when `m ≤ 24` and every character
code is at most `116` (`'t'`), no intermediate `int` value overflows and no
`% INT_MAX` reduction fires, so the result is the exact polynomial value. -/
theorem hash_eq_windowSum {L : List Char} (hb : ∀ x, cAt L x ≤ 116) {m : Nat}
    (hm : m ≤ 24) : hash L ((m : Int) - 1) = windowSum L 0 m := by
  have hpowle : ∀ k : Nat, k ≤ 24 → (2 : Int) ^ k ≤ 2 ^ 24 :=
    fun k hk => pow_le_pow_right₀ (by norm_num) hk
  have key : ∀ k, k ≤ m →
      (List.range k).foldl
        (fun v i => wrap32 (v + wrap32 (cAt L i * cpow2 ((m : Int) - 1 - (i : Int))))) 0
        = windowSum L 0 k * 2 ^ (m - k) := by
    intro k
    induction k with
    | zero => intro _; simp [windowSum]
    | succ k ih =>
      intro hk
      rw [List.range_succ, List.foldl_append, ih (by omega)]
      simp only [List.foldl_cons, List.foldl_nil]
      have hc : (m : Int) - 1 - (k : Int) = ((m - 1 - k : Nat) : Int) := by omega
      rw [hc, cpow2_natCast _ (by omega)]
      have hterm1 : (0 : Int) ≤ cAt L k * 2 ^ (m - 1 - k) :=
        mul_nonneg (cAt_nonneg L k) (by positivity)
      have hterm2 : cAt L k * 2 ^ (m - 1 - k) < 2 ^ 31 := by
        have h116 := hb k
        have hple : (2 : Int) ^ (m - 1 - k) ≤ 2 ^ 24 := hpowle _ (by omega)
        have hpos : (0 : Int) < 2 ^ (m - 1 - k) := by positivity
        nlinarith
      rw [wrap32_eq_self (by omega) hterm2]
      have hws : windowSum L 0 k * 2 ^ (m - k) + cAt L k * 2 ^ (m - 1 - k)
          = windowSum L 0 (k + 1) * 2 ^ (m - (k + 1)) := by
        have hrw : windowSum L 0 (k + 1) = 2 * windowSum L 0 k + cAt L k := by
          rw [windowSum_succ_last]; norm_num
        have hmk : m - k = m - (k + 1) + 1 := by omega
        have hmk' : m - 1 - k = m - (k + 1) := by omega
        rw [hrw, hmk, hmk', pow_succ]
        ring
      rw [hws]
      have hnn : (0 : Int) ≤ windowSum L 0 (k + 1) * 2 ^ (m - (k + 1)) :=
        mul_nonneg (windowSum_nonneg L 0 (k + 1)) (by positivity)
      refine wrap32_eq_self (by omega) ?_
      have hle1 : windowSum L 0 (k + 1) ≤ 116 * (2 ^ (k + 1) - 1) := windowSum_le hb 0 (k + 1)
      have hle2 : windowSum L 0 (k + 1) * 2 ^ (m - (k + 1)) ≤ 116 * 2 ^ 24 := by
        have hp1 : (0 : Int) < 2 ^ (m - (k + 1)) := by positivity
        have hp2 : (2 : Int) ^ (k + 1) * 2 ^ (m - (k + 1)) = 2 ^ m := by
          rw [← pow_add]
          congr 1
          omega
        have hp3 : (2 : Int) ^ m ≤ 2 ^ 24 := hpowle _ hm
        nlinarith [windowSum_nonneg L 0 (k + 1)]
      omega
  unfold hash
  have harg : ((m : Int) - 1 + 1).toNat = m := by omega
  rw [harg, key m le_rfl]
  rw [Nat.sub_self, pow_zero, mul_one]
  refine tmod_INT_MAX_eq_self (windowSum_nonneg L 0 m) ?_
  have hle1 : windowSum L 0 m ≤ 116 * (2 ^ m - 1) := windowSum_le hb 0 m
  have hle2 : (2 : Int) ^ m ≤ 2 ^ 24 := hpowle _ hm
  unfold INT_MAX
  nlinarith

/-- The `rehash` window transition is exact on polynomial window values when
`1 ≤ m ≤ 24` and all character codes are at most `116`. -/
theorem rehash_windowSum {S : List Char} (hb : ∀ x, cAt S x ≤ 116) {m : Nat}
    (hm1 : 1 ≤ m) (hm2 : m ≤ 24) (i : Nat) :
    rehash (cAt S i) (windowSum S i m) (cAt S (i + m)) ((m : Int) - 1) =
      windowSum S (i + 1) m := by
  obtain ⟨p, rfl⟩ : ∃ p, m = p + 1 := ⟨m - 1, by omega⟩
  have hc : ((p + 1 : Nat) : Int) - 1 = ((p : Nat) : Int) := by push_cast; omega
  unfold rehash
  rw [hc, cpow2_natCast _ (by omega)]
  have hpowle : (2 : Int) ^ p ≤ 2 ^ 23 := pow_le_pow_right₀ (by norm_num) (by omega)
  have hpow_pos : (0 : Int) < 2 ^ p := by positivity
  have hbi := hb i
  have hbe := hb (i + (p + 1))
  have hlead1 : (0 : Int) ≤ cAt S i * 2 ^ p := mul_nonneg (cAt_nonneg S i) (by positivity)
  have hlead2 : cAt S i * 2 ^ p < 2 ^ 31 := by nlinarith
  rw [wrap32_eq_self (by omega) hlead2]
  rw [windowSum_succ_first]
  have hsub : cAt S i * 2 ^ p + windowSum S (i + 1) p - cAt S i * 2 ^ p
      = windowSum S (i + 1) p := by ring
  rw [hsub]
  have hws0 : (0 : Int) ≤ windowSum S (i + 1) p := windowSum_nonneg S (i + 1) p
  have hwsle : windowSum S (i + 1) p ≤ 116 * (2 ^ p - 1) := windowSum_le hb (i + 1) p
  have hple : (116 : Int) * (2 ^ p - 1) ≤ 116 * (2 ^ 23 - 1) := by nlinarith
  have hbe0 : (0 : Int) ≤ cAt S (i + (p + 1)) := cAt_nonneg S (i + (p + 1))
  have e1 : wrap32 (windowSum S (i + 1) p) = windowSum S (i + 1) p :=
    wrap32_eq_self (by omega) (by omega)
  rw [e1]
  have e2 : wrap32 (windowSum S (i + 1) p * 2) = windowSum S (i + 1) p * 2 :=
    wrap32_eq_self (by omega) (by omega)
  rw [e2]
  have e3 : wrap32 (windowSum S (i + 1) p * 2 + cAt S (i + (p + 1)))
      = windowSum S (i + 1) p * 2 + cAt S (i + (p + 1)) :=
    wrap32_eq_self (by omega) (by omega)
  rw [e3]
  rw [tmod_INT_MAX_eq_self (by omega) (by unfold INT_MAX; omega)]
  rw [windowSum_succ_last]
  have he : i + 1 + p = i + (p + 1) := by omega
  rw [he]
  ring

/-! ## The Karp-Rabin scan refines the brute-force scan -/

theorem matchAt_iff {dna pat : List Char} {i : Nat} :
    matchAt dna pat i = true ↔ ∀ j < pat.length, cAt pat j = cAt dna (i + j) := by
  simp [matchAt, List.all_eq_true, List.mem_range]

/-- A full character match makes the window's polynomial value equal the pattern's. -/
theorem windowSum_of_matchAt {S P : List Char} {k : Nat} (h : matchAt S P k = true) :
    windowSum P 0 P.length = windowSum S k P.length := by
  unfold windowSum
  refine Finset.sum_congr rfl fun j hj => ?_
  rw [Finset.mem_range] at hj
  rw [zero_add, matchAt_iff.mp h j hj]

/-- Generic loop invariant for a `for (i = 0; i < n; i++)` loop modeled as a
fold over `List.range n`. -/
theorem foldl_range_inv {α : Type} (f : α → Nat → α) (Q : Nat → α → Prop) :
    ∀ n a₀, Q 0 a₀ → (∀ k a, k < n → Q k a → Q (k + 1) (f a k)) →
      Q n ((List.range n).foldl f a₀) := by
  intro n
  induction n with
  | zero => intro a₀ h0 _; simpa using h0
  | succ n ih =>
    intro a₀ h0 hstep
    rw [List.range_succ, List.foldl_append]
    simp only [List.foldl_cons, List.foldl_nil]
    exact hstep n _ (by omega) (ih a₀ h0 fun k a hk => hstep k a (by omega))

/-- §8 cross-validation, in the overflow-free regime: for DNA sequences and a
pattern with `1 ≤ |P| ≤ 24` and `|P| ≤ |S|`, the Karp-Rabin scan counts exactly
the brute-force occurrences. -/
theorem karpRabin_eq_bruteForce {S P : List Char} (hS : isDna S) (hP : isDna P)
    (h1 : 1 ≤ P.length) (h2 : P.length ≤ 24) (_hle : P.length ≤ S.length) :
    bruteForce S P = karpRabin S P := by
  have hbS : ∀ x, cAt S x ≤ 116 := cAt_le_of_isDna hS
  have hbP : ∀ x, cAt P x ≤ 116 := cAt_le_of_isDna hP
  have hpat : hash P ((P.length : Int) - 1) = windowSum P 0 P.length :=
    hash_eq_windowSum hbP h2
  have hdna : hash S ((P.length : Int) - 1) = windowSum S 0 P.length :=
    hash_eq_windowSum hbS h2
  unfold karpRabin bruteForce
  set n := ((S.length : Int) - (P.length : Int) + 1).toNat with hn
  have inv : ∀ k (st : Nat × Int), k < n →
      (st.1 = (List.range k).countP (matchAt S P) ∧ st.2 = windowSum S k P.length) →
      ((karpRabinStep S P (hash P ((P.length : Int) - 1)) st k).1
          = (List.range (k + 1)).countP (matchAt S P) ∧
        (karpRabinStep S P ((hash P ((P.length : Int) - 1))) st k).2
          = windowSum S (k + 1) P.length) := by
    intro k st _ ⟨hfst, hsnd⟩
    constructor
    · unfold karpRabinStep
      rw [List.range_succ, List.countP_append]
      simp only [List.countP_cons, List.countP_nil]
      by_cases hm : matchAt S P k = true
      · have hguard : hash P ((P.length : Int) - 1) = st.2 := by
          rw [hpat, hsnd]
          exact windowSum_of_matchAt hm
        rw [if_pos hguard, if_pos hm, hfst, hm]
        simp
      · rw [hfst]
        have hms : matchAt S P k = false := by simpa using hm
        rw [hms]
        split <;> simp [hms]
    · unfold karpRabinStep
      rw [hsnd]
      exact rehash_windowSum hbS h1 h2 k
  have main := foldl_range_inv (karpRabinStep S P (hash P ((P.length : Int) - 1)))
    (fun k st => st.1 = (List.range k).countP (matchAt S P) ∧
      st.2 = windowSum S k P.length)
    n (0, hash S ((P.length : Int) - 1)) (by simpa using hdna) inv
  exact main.1.symm

/-! ## `hash` applied to a window substring -/

/-- Character bounds carry over to every window `(S.drop d).take m`. -/
theorem cAt_window_le {S : List Char} (hb : ∀ x, cAt S x ≤ 116) (d m : Nat) :
    ∀ x, cAt ((S.drop d).take m) x ≤ 116 := by
  intro x
  rw [cAt_drop_take]
  split
  · exact hb (d + x)
  · norm_num

/-- `hash` of the window substring `S[d .. d+m)` is the polynomial window value,
for `m ≤ 24` and bounded character codes. -/
theorem hash_window {S : List Char} (hb : ∀ x, cAt S x ≤ 116) (d : Nat) {m : Nat}
    (hm : m ≤ 24) :
    hash ((S.drop d).take m) ((m : Int) - 1) = windowSum S d m := by
  rw [hash_eq_windowSum (cAt_window_le hb d m) hm]
  unfold windowSum
  refine Finset.sum_congr rfl fun j hj => ?_
  rw [Finset.mem_range] at hj
  rw [zero_add, cAt_drop_take, if_pos hj]

/-! ## Brute force counts exactly the matching offsets -/

theorem countP_range_card (n : Nat) (p : Nat → Bool) (q : Nat → Prop) [DecidablePred q]
    (hpq : ∀ i, i < n → (p i = true ↔ q i)) :
    (List.range n).countP p = ((Finset.range n).filter q).card := by
  induction n with
  | zero => simp
  | succ n ih =>
    rw [List.range_succ, List.countP_append, Finset.range_succ, Finset.filter_insert]
    have ihn := ih fun i hi => hpq i (by omega)
    by_cases hq : q n
    · rw [if_pos hq, Finset.card_insert_of_not_mem (by simp)]
      have hp : p n = true := (hpq n (by omega)).mpr hq
      simp [hp, ihn]
    · rw [if_neg hq]
      have hp : p n = false := by
        cases hpn : p n
        · rfl
        · exact absurd ((hpq n (by omega)).mp hpn) hq
      simp [hp, ihn]

/-- For an in-range offset, the verification loop succeeds exactly when the
pattern equals the corresponding slice of the sequence. -/
theorem matchAt_iff_slice {S P : List Char} {i : Nat} (hi : i + P.length ≤ S.length) :
    matchAt S P i = true ↔ (S.drop i).take P.length = P := by
  rw [matchAt_iff]
  constructor
  · intro h
    apply List.ext_getElem?
    intro n
    rw [List.getElem?_take, List.getElem?_drop]
    by_cases hn : n < P.length
    · rw [if_pos hn]
      have h1 : i + n < S.length := by omega
      rw [List.getElem?_eq_getElem h1, List.getElem?_eq_getElem hn]
      congr 1
      have hc := h n hn
      rw [cAt_eq_of_lt (show n < P.length by omega),
        cAt_eq_of_lt (show i + n < S.length by omega)] at hc
      exact (charCode_inj hc).symm
    · rw [if_neg hn, eq_comm, List.getElem?_eq_none_iff]
      omega
  · intro h j hj
    have hc : cAt P j = cAt ((S.drop i).take P.length) j := by rw [h]
    rw [hc, cAt_drop_take, if_pos hj]

/-! ## Claim theorems: exact matchers -/

set_option maxRecDepth 100000 in
/-- C1, counterexample: the claimed equivalence `bruteForce(S,P) == karpRabin(S,P)`
for all DNA sequences with `|P| ≤ |S|` fails (a) for the empty pattern, where
`rehash` corrupts the running hash after the first offset, and (b) for `|P| = 33`,
where 32-bit `int` overflow makes the rehash chain diverge from the pattern hash. -/
theorem C1_counterexample :
    (isDna ['a'] ∧ isDna ([] : List Char) ∧
      List.length ([] : List Char) ≤ List.length ['a'] ∧
      bruteForce ['a'] [] = 2 ∧ karpRabin ['a'] [] = 1) ∧
    (isDna (List.replicate 34 'a') ∧ isDna (List.replicate 33 'a') ∧
      (List.replicate 33 'a').length ≤ (List.replicate 34 'a').length ∧
      bruteForce (List.replicate 34 'a') (List.replicate 33 'a') = 2 ∧
      karpRabin (List.replicate 34 'a') (List.replicate 33 'a') = 1) := by
  decide

/-- C1 (amended): for DNA sequences `S` and patterns `P` with `1 ≤ |P| ≤ 24`
and `|P| ≤ |S|` — the regime where no hash arithmetic overflows an `int` —
the rolling-hash matcher returns the same occurrence count as the brute-force
matcher: `bruteForce(S,P) == karpRabin(S,P)`. -/
theorem C1_amended_cross_validation (S P : List Char) (hS : isDna S) (hP : isDna P)
    (h1 : 1 ≤ P.length) (h2 : P.length ≤ 24) (hle : P.length ≤ S.length) :
    bruteForce S P = karpRabin S P :=
  karpRabin_eq_bruteForce hS hP h1 h2 hle

/-- Witness for C1 (amended) at `S = "acgtacgt"`, `P = "acgt"`. -/
theorem C1_witness :
    isDna "acgtacgt".toList ∧ isDna "acgt".toList ∧
      1 ≤ "acgt".toList.length ∧ "acgt".toList.length ≤ 24 ∧
      "acgt".toList.length ≤ "acgtacgt".toList.length ∧
      bruteForce "acgtacgt".toList "acgt".toList = karpRabin "acgtacgt".toList "acgt".toList :=
  ⟨by decide, by decide, by decide, by decide, by decide,
    C1_amended_cross_validation _ _ (by decide) (by decide) (by decide) (by decide) (by decide)⟩

set_option maxRecDepth 100000 in
/-- C3, counterexample: at window length `|P| = 33` the rehash transition no
longer agrees with hashing the next window from scratch (the shifted leading
weight `2 * (int)pow(2,31)` wraps to `0` instead of `(int)pow(2,32)`):
on `S = a^34`, `i = 0`, `rehash` yields `-97` while the fresh hash is `2147483551`. -/
theorem C3_counterexample :
    isDna (List.replicate 34 'a') ∧ (1 : Nat) ≤ 33 ∧
      0 + 33 ≤ (List.replicate 34 'a').length ∧
      rehash (cAt (List.replicate 34 'a') 0)
          (hash (((List.replicate 34 'a').drop 0).take 33) ((33 : Int) - 1))
          (cAt (List.replicate 34 'a') (0 + 33)) ((33 : Int) - 1)
        ≠ hash (((List.replicate 34 'a').drop 1).take 33) ((33 : Int) - 1) := by
  decide

/-- C3 (amended): for a DNA sequence `S`, window length `1 ≤ |P| ≤ 24` (so that
no hash arithmetic overflows an `int`) and window position `0 ≤ i ≤ |S| - |P|`,
the rehash window transition from the hash of `S[i..i+|P|)` equals the hash
computed from scratch of `S[i+1..i+1+|P|)` under the same modulus. -/
theorem C3_amended_rehash_consistent (S : List Char) (m i : Nat) (hS : isDna S)
    (h1 : 1 ≤ m) (h2 : m ≤ 24) (_hi : i + m ≤ S.length) :
    rehash (cAt S i) (hash ((S.drop i).take m) ((m : Int) - 1))
        (cAt S (i + m)) ((m : Int) - 1)
      = hash ((S.drop (i + 1)).take m) ((m : Int) - 1) := by
  have hb := cAt_le_of_isDna hS
  rw [hash_window hb i h2, hash_window hb (i + 1) h2]
  exact rehash_windowSum hb h1 h2 i

/-- Witness for C3 (amended) at `S = "acgtacgt"`, `|P| = 4`, `i = 2`. -/
theorem C3_witness :
    isDna "acgtacgt".toList ∧ (1 : Nat) ≤ 4 ∧ 4 ≤ 24 ∧ 2 + 4 ≤ "acgtacgt".toList.length ∧
      rehash (cAt "acgtacgt".toList 2) (hash (("acgtacgt".toList.drop 2).take 4) ((4 : Int) - 1))
          (cAt "acgtacgt".toList (2 + 4)) ((4 : Int) - 1)
        = hash (("acgtacgt".toList.drop 3).take 4) ((4 : Int) - 1) :=
  ⟨by decide, by decide, by decide, by decide,
    C3_amended_rehash_consistent _ 4 2 (by decide) (by decide) (by decide) (by decide)⟩

/-- C4: `bruteForce(S,P)` is the number of start offsets
`0 ≤ i ≤ |S| - |P|` at which `P` equals the slice `S[i..i+|P|)`; all
overlapping matches are counted because every offset is examined. -/
theorem C4_bruteForce_counts_all_offsets (S P : List Char) :
    bruteForce S P =
      ((Finset.range (S.length + 1 - P.length)).filter
        (fun i => (S.drop i).take P.length = P)).card := by
  unfold bruteForce
  have hn : ((S.length : Int) - (P.length : Int) + 1).toNat = S.length + 1 - P.length := by
    omega
  rw [hn]
  exact countP_range_card _ _ _ fun i hi => matchAt_iff_slice (by omega)

/-- C6: when the pattern is longer than the sequence, both matchers return 0:
the scan loop `for (i = 0; i <= dnaLength - patternLength; i++)` has an empty
range and neither function signals any failure. -/
theorem C6_zero_match_boundary (S P : List Char) (h : S.length < P.length) :
    bruteForce S P = 0 ∧ karpRabin S P = 0 := by
  have hn : ((S.length : Int) - (P.length : Int) + 1).toNat = 0 :=
    Int.toNat_of_nonpos (by omega)
  constructor
  · unfold bruteForce
    rw [hn]
    rfl
  · unfold karpRabin
    rw [hn]
    rfl

/-- Witness for C6 at `S = "a"`, `P = "aa"`. -/
theorem C6_witness :
    "a".toList.length < "aa".toList.length ∧
      bruteForce "a".toList "aa".toList = 0 ∧ karpRabin "a".toList "aa".toList = 0 :=
  ⟨by decide, C6_zero_match_boundary _ _ (by decide)⟩

/-- C9: on `S = "aaaa"`, `P = "aa"` both matchers count the three overlapping
occurrences at offsets 0, 1, 2. -/
theorem C9_overlap_scenario :
    bruteForce "aaaa".toList "aa".toList = 3 ∧ karpRabin "aaaa".toList "aa".toList = 3 := by
  decide

/-- C10: with the empty pattern, `bruteForce` examines every offset
`0 ≤ i ≤ |S|` and each one counts as a vacuous full match, so it returns `|S| + 1`. -/
theorem C10_empty_pattern (S : List Char) : bruteForce S [] = S.length + 1 := by
  unfold bruteForce
  have hm : matchAt S [] = fun _ => true := funext fun _ => rfl
  have hn : ((S.length : Int) - ((List.length ([] : List Char) : Nat) : Int) + 1).toNat
      = S.length + 1 := by
    simp
  rw [hm, hn, List.countP_true, List.length_range]

/-! ## The LCS dynamic program -/

theorem lcssT_zero_right (A B : List Char) (i : Nat) : lcssT A B i 0 = 0 := by
  cases i <;> rfl

/-- The recurrence the table satisfies (lines 155-164 of the source):
`T[i+1][j+1] = T[i][j] + 1` on equal characters, else `max(T[i][j+1], T[i+1][j])`. -/
theorem lcssT_succ_succ (A B : List Char) (i j : Nat) :
    lcssT A B (i + 1) (j + 1)
      = if cAt A i = cAt B j then lcssT A B i j + 1
        else max (lcssT A B i (j + 1)) (lcssT A B (i + 1) j) := rfl

theorem lcssT_le_min (A B : List Char) : ∀ i j, lcssT A B i j ≤ min i j := by
  intro i
  induction i with
  | zero => intro j; simp [lcssT]
  | succ i ihi =>
    intro j
    induction j with
    | zero => rw [lcssT_zero_right]; omega
    | succ j ihj =>
      rw [lcssT_succ_succ]
      split
      · have := ihi j
        omega
      · have h1 := ihi (j + 1)
        omega

theorem lcssT_comm (A B : List Char) : ∀ i j, lcssT A B i j = lcssT B A j i := by
  intro i
  induction i with
  | zero =>
    intro j
    rw [lcssT_zero_right]
    rfl
  | succ i ihi =>
    intro j
    induction j with
    | zero => rw [lcssT_zero_right]; rfl
    | succ j ihj =>
      rw [lcssT_succ_succ, lcssT_succ_succ]
      by_cases hc : cAt A i = cAt B j
      · rw [if_pos hc, if_pos hc.symm, ihi j]
      · rw [if_neg hc, if_neg (fun h => hc h.symm), ihi (j + 1), ihj]
        exact Nat.max_comm _ _

/-- Head-recursive formulation of the LCS length: the table consumes its
inputs from the right, this function from the left; it is the stepping stone
between the table and the subsequence characterization. -/
def lcssList : List Char → List Char → Nat
  | [], _ => 0
  | _ :: _, [] => 0
  | a :: as, b :: bs =>
    if a = b then lcssList as bs + 1
    else max (lcssList (a :: as) bs) (lcssList as (b :: bs))
termination_by x y => x.length + y.length

theorem lcssList_nil_right (l : List Char) : lcssList l [] = 0 := by
  cases l <;> simp [lcssList]

theorem lcssList_cons_cons (a b : Char) (as bs : List Char) :
    lcssList (a :: as) (b :: bs) =
      if a = b then lcssList as bs + 1
      else max (lcssList (a :: as) bs) (lcssList as (b :: bs)) := by
  simp [lcssList]

theorem sublist_tail {α : Type} {x a : α} {l₁ l₂ : List α}
    (h : (x :: l₁).Sublist (a :: l₂)) : l₁.Sublist l₂ := by
  cases h with
  | cons _ h => exact (List.Sublist.cons x (List.Sublist.refl l₁)).trans h
  | cons₂ _ h => exact h

/-- `lcssList` is attained by some common subsequence. -/
theorem lcssList_exists (as bs : List Char) :
    ∃ l : List Char, l.Sublist as ∧ l.Sublist bs ∧ l.length = lcssList as bs := by
  induction as, bs using lcssList.induct with
  | case1 bs => exact ⟨[], List.nil_sublist _, List.nil_sublist _, by simp [lcssList]⟩
  | case2 a as => exact ⟨[], List.nil_sublist _, List.nil_sublist _, by simp [lcssList_nil_right]⟩
  | case3 as b bs ih =>
    obtain ⟨l, h1, h2, h3⟩ := ih
    exact ⟨b :: l, List.Sublist.cons₂ b h1, List.Sublist.cons₂ b h2,
      by rw [lcssList_cons_cons, if_pos rfl]; simp [h3]⟩
  | case4 a as b bs hab ih1 ih2 =>
    obtain ⟨l1, h11, h12, h13⟩ := ih1
    obtain ⟨l2, h21, h22, h23⟩ := ih2
    rw [lcssList_cons_cons, if_neg hab]
    rcases Nat.le_total (lcssList (a :: as) bs) (lcssList as (b :: bs)) with hle | hle
    · exact ⟨l2, List.Sublist.trans h21 (List.Sublist.cons a (List.Sublist.refl as)),
        h22, by rw [h23]; omega⟩
    · exact ⟨l1, h11, List.Sublist.trans h12 (List.Sublist.cons b (List.Sublist.refl bs)),
        by rw [h13]; omega⟩

/-- `lcssList` bounds the length of every common subsequence. -/
theorem lcssList_ge (as bs : List Char) :
    ∀ l : List Char, l.Sublist as → l.Sublist bs → l.length ≤ lcssList as bs := by
  induction as, bs using lcssList.induct with
  | case1 bs =>
    intro l h1 _
    rw [List.sublist_nil.mp h1]
    simp
  | case2 a as =>
    intro l _ h2
    rw [List.sublist_nil.mp h2]
    simp
  | case3 as b bs ih =>
    intro l h1 h2
    rw [lcssList_cons_cons, if_pos rfl]
    cases l with
    | nil => simp
    | cons x l' =>
      have hx1 : l'.Sublist as := sublist_tail h1
      have hx2 : l'.Sublist bs := sublist_tail h2
      have := ih l' hx1 hx2
      simpa using this
  | case4 a as b bs hab ih1 ih2 =>
    intro l h1 h2
    rw [lcssList_cons_cons, if_neg hab]
    cases h2 with
    | cons _ h2' =>
      exact le_max_of_le_left (ih1 l h1 h2')
    | cons₂ _ h2' =>
      cases h1 with
      | cons _ h1' =>
        exact le_max_of_le_right (ih2 _ h1' (List.Sublist.cons₂ b h2'))
      | cons₂ h1' => exact absurd rfl hab

theorem take_succ_reverse {A : List Char} {i : Nat} (h : i < A.length) :
    (A.take (i + 1)).reverse = A[i] :: (A.take i).reverse := by
  rw [← List.take_concat_get A i h]
  simp

/-- The table entry `T[i][j]` is the LCS length of the reversed prefixes
`A[0..i)` and `B[0..j)`. -/
theorem lcssT_eq_lcssList (A B : List Char) :
    ∀ i j, i ≤ A.length → j ≤ B.length →
      lcssT A B i j = lcssList ((A.take i).reverse) ((B.take j).reverse) := by
  intro i
  induction i with
  | zero =>
    intro j _ _
    rw [List.take_zero, List.reverse_nil]
    show (0 : Nat) = _
    simp [lcssList]
  | succ i ihi =>
    intro j hi
    induction j with
    | zero =>
      intro _
      rw [lcssT_zero_right, List.take_zero, List.reverse_nil, lcssList_nil_right]
    | succ j ihj =>
      intro hj
      have hiA : i < A.length := by omega
      have hjB : j < B.length := by omega
      have htakeA : (A.take (i + 1)).reverse = A[i] :: (A.take i).reverse :=
        take_succ_reverse hiA
      have htakeB : (B.take (j + 1)).reverse = B[j] :: (B.take j).reverse :=
        take_succ_reverse hjB
      have hcond : (cAt A i = cAt B j) ↔ (A[i] = B[j]) := by
        rw [cAt_eq_of_lt (by omega : i < A.length),
          cAt_eq_of_lt (by omega : j < B.length)]
        exact ⟨charCode_inj, fun h => by rw [h]⟩
      rw [lcssT_succ_succ, htakeA, htakeB, lcssList_cons_cons]
      by_cases hc : A[i] = B[j]
      · rw [if_pos (hcond.mpr hc), if_pos hc, ihi j (by omega) (by omega)]
      · rw [if_neg (fun h => hc (hcond.mp h)), if_neg hc,
          ihi (j + 1) (by omega) (by omega), ihj (by omega), ← htakeA, ← htakeB]
        exact Nat.max_comm _ _

/-! ## Claim theorems: aligner -/

/-- C2: the failing input of the normalized-distance computation. With
`A = ""`, `B = "acgt"`, `lcss` returns `0` and `min(strlen(A), strlen(B)) = 0`,
so line 211 of `main` computes `1 - (float)0 / 0` — a float division by zero
yielding NaN that is then printed — instead of signaling the
`DivisionByZero`/`UndefinedDistance` failure the claim requires. -/
theorem C2_zero_denominator_reached :
    lcss [] "acgt".toList = 0 ∧
      min (List.length ([] : List Char)) "acgt".toList.length = 0 := by
  decide

/-- C5: `lcss A B` is the bottom-right entry of the dynamic-programming table
(`lcssT` satisfies the recurrence by `lcssT_zero_right`/`lcssT_succ_succ`),
and this value is the length of a longest common subsequence of `A` and `B`:
some common subsequence attains it and none is longer. -/
theorem C5_lcss_is_lcs_length (A B : List Char) :
    lcss A B = lcssT A B A.length B.length ∧
      (∃ l : List Char, l.Sublist A ∧ l.Sublist B ∧ l.length = lcss A B) ∧
      (∀ l : List Char, l.Sublist A → l.Sublist B → l.length ≤ lcss A B) := by
  have hbridge : lcss A B = lcssList A.reverse B.reverse := by
    unfold lcss
    rw [lcssT_eq_lcssList A B A.length B.length le_rfl le_rfl,
      List.take_length, List.take_length]
  refine ⟨rfl, ?_, ?_⟩
  · obtain ⟨l, h1, h2, h3⟩ := lcssList_exists A.reverse B.reverse
    refine ⟨l.reverse, ?_, ?_, ?_⟩
    · have hr := List.reverse_sublist.mpr h1
      rwa [List.reverse_reverse] at hr
    · have hr := List.reverse_sublist.mpr h2
      rwa [List.reverse_reverse] at hr
    · rw [List.length_reverse, h3, hbridge]
  · intro l h1 h2
    have h1' : l.reverse.Sublist A.reverse := List.reverse_sublist.mpr h1
    have h2' : l.reverse.Sublist B.reverse := List.reverse_sublist.mpr h2
    have hle := lcssList_ge A.reverse B.reverse l.reverse h1' h2'
    rw [List.length_reverse] at hle
    rw [hbridge]
    exact hle

/-- C7: the LCS length is between `0` and the length of the shorter sequence. -/
theorem C7_lcss_bounds (A B : List Char) :
    0 ≤ lcss A B ∧ lcss A B ≤ min A.length B.length :=
  ⟨Nat.zero_le _, lcssT_le_min A B A.length B.length⟩

/-- C8: the LCS length is symmetric in its two arguments. -/
theorem C8_lcss_symm (A B : List Char) : lcss A B = lcss B A :=
  lcssT_comm A B A.length B.length

end DnaPM
